import Mathlib

/-!
Verification development for the brieflow-analysis cluster-module core:
a shallow embedding of the cluster-parameter configuration pipeline
(null-baseline shuffle, resolution sweep grid, PCA component selection,
control normalization, feature selection, benchmark schemas,
differential feature analysis, cluster engine, config rewriting),
with theorems settling the specification's claims about it.
-/

namespace Brieflow

/-- Model of the ambient global NumPy random state (`np.random`): a PRNG
state threaded implicitly through library calls.  `np.random.permutation`
is modelled below as a Fisher-Yates shuffle drawing from this state.  The
concrete generator is an LCG standing in for MT19937; what matters for the
claims is that the state is ambient (not an explicit per-call argument)
and that each draw advances it. -/
structure RNG where
  state : ℕ
deriving DecidableEq

/-- One draw from the ambient generator: an output value and the advanced
state. -/
def RNG.next (g : RNG) : ℕ × RNG :=
  (g.state, ⟨(g.state * 1103515245 + 12345) % 2147483648⟩)

/-- Fuel-indexed Fisher-Yates shuffle: repeatedly draw an index below the
remaining length, move that element to the front, recurse on the rest.
The fuel is instantiated with the list length (each step removes exactly
one element), keeping the recursion structural. -/
def npPermAux {α : Type} : ℕ → RNG → List α → List α × RNG
  | 0, g, _ => ([], g)
  | _ + 1, g, [] => ([], g)
  | fuel + 1, g, x :: xs =>
    let j := (RNG.next g).1 % (x :: xs).length
    let res := npPermAux fuel (RNG.next g).2 ((x :: xs).eraseIdx j)
    ((x :: xs).getD j x :: res.1, res.2)

/-- Model of `np.random.permutation(values)`: shuffle a copy of the list,
consuming the ambient random state. -/
def npPermutation {α : Type} (g : RNG) (l : List α) : List α × RNG :=
  npPermAux l.length g l

/-- Moving the selected element of a Fisher-Yates step to the front is a
permutation of the original list. -/
theorem getD_cons_eraseIdx_perm {α : Type} (l : List α) (d : α) (j : ℕ) (h : j < l.length) :
    List.Perm (l.getD j d :: l.eraseIdx j) l := by
  have hd : l.getD j d = l[j] := by
    simp [List.getD_eq_getElem?_getD, List.getElem?_eq_getElem h]
  rw [hd, List.eraseIdx_eq_take_drop_succ]
  calc List.Perm (l[j] :: (l.take j ++ l.drop (j + 1)))
        (l.take j ++ l[j] :: l.drop (j + 1)) := List.perm_middle.symm
    _ = l.take j ++ l.drop j := by rw [List.getElem_cons_drop]
    _ = l := List.take_append_drop j l

/-- With enough fuel, the fuel-indexed shuffle emits a permutation of its
input. -/
theorem npPermAux_perm :
    ∀ {α : Type} (fuel : ℕ) (g : RNG) (l : List α), l.length ≤ fuel →
      List.Perm (npPermAux fuel g l).1 l := by
  intro α fuel
  induction fuel with
  | zero =>
    intro g l h
    have hl : l = [] := List.eq_nil_of_length_eq_zero (Nat.le_zero.mp h)
    subst hl
    simp [npPermAux]
  | succ n ih =>
    intro g l h
    match l with
    | [] => simp [npPermAux]
    | x :: xs =>
      simp only [npPermAux]
      have hj : (RNG.next g).1 % (x :: xs).length < (x :: xs).length :=
        Nat.mod_lt _ (by simp)
      have hlen : ((x :: xs).eraseIdx ((RNG.next g).1 % (x :: xs).length)).length ≤ n := by
        rw [List.length_eraseIdx_of_lt hj]
        simpa using h
      exact ((ih _ _ hlen).cons _).trans (getD_cons_eraseIdx_perm _ _ _ hj)

/-- `np.random.permutation` returns a permutation of its input. -/
theorem npPermutation_perm {α : Type} (g : RNG) (l : List α) : List.Perm (npPermutation g l).1 l :=
  npPermAux_perm _ _ _ le_rfl

/-- A named column of rational values (one column of a pandas DataFrame). -/
abbrev Col := String × List ℚ

/-- A tabular dataset in column-major form: the ordered named columns of
the DataFrame `aggregated_data`. -/
abbrev Table := List Col

/-- Default column used with `List.getD` when indexing a table. -/
def defaultCol : Col := ("", [])

/-- Model of `df.columns.get_loc(name)`: the position of the first column
carrying the given label; `none` models the `KeyError` raised on a missing
label. -/
def columnIndex (t : Table) (name : String) : Option ℕ :=
  t.findIdx? (fun c => c.1 == name)

/-- The column loop of the null-baseline construction: walk the columns
with their positional index `i`; from position `start` on, replace each
column's values by `np.random.permutation` of them, threading the ambient
random state; columns before `start` are kept as they are. -/
def shuffleColsFrom : RNG → ℕ → ℕ → Table → Table × RNG
  | g, _, _, [] => ([], g)
  | g, i, start, c :: cs =>
    if start ≤ i then
      let pr := npPermutation g c.2
      let rest := shuffleColsFrom pr.2 (i + 1) start cs
      ((c.1, pr.1) :: rest.1, rest.2)
    else
      let rest := shuffleColsFrom g (i + 1) start cs
      (c :: rest.1, rest.2)

/-- Embedding of the null-baseline construction of the cluster-parameter
notebook: `feature_start_idx = columns.get_loc("PC_0")`, then every column
at or after that index is replaced by `np.random.permutation` of its
values (`shuffled_aggregated_data[col] = np.random.permutation(...)`),
drawing from the ambient NumPy random state `g`.  `none` models the
`KeyError` when no column is named `PC_0`. -/
def shuffled_aggregated_data (g : RNG) (t : Table) : Option (Table × RNG) :=
  match columnIndex t "PC_0" with
  | none => none
  | some idx => some (shuffleColsFrom g 0 idx t)

/-- The column loop preserves the number of columns. -/
theorem shuffleColsFrom_length (g : RNG) (i start : ℕ) (cs : Table) :
    (shuffleColsFrom g i start cs).1.length = cs.length := by
  induction cs generalizing g i with
  | nil => simp [shuffleColsFrom]
  | cons c cs ih =>
    simp only [shuffleColsFrom]
    split
    · simpa using ih _ (i + 1)
    · simpa using ih _ (i + 1)

/-- Columns strictly before the start index are unchanged by the column
loop. -/
theorem shuffleColsFrom_getD_lt (g : RNG) (i start k : ℕ) (cs : Table)
    (h : i + k < start) :
    (shuffleColsFrom g i start cs).1.getD k defaultCol = cs.getD k defaultCol := by
  induction cs generalizing g i k with
  | nil => simp [shuffleColsFrom]
  | cons c cs ih =>
    have hnot : ¬ start ≤ i := by omega
    simp only [shuffleColsFrom, if_neg hnot]
    match k with
    | 0 => simp
    | k + 1 =>
      simp only [List.getD_cons_succ]
      exact ih g (i + 1) k (by omega)

/-- Every column keeps its name, and its values are permuted (hence the
same multiset of values), under the column loop. -/
theorem shuffleColsFrom_getD_perm (g : RNG) (i start k : ℕ) (cs : Table) :
    ((shuffleColsFrom g i start cs).1.getD k defaultCol).1
        = (cs.getD k defaultCol).1 ∧
    List.Perm ((shuffleColsFrom g i start cs).1.getD k defaultCol).2
        (cs.getD k defaultCol).2 := by
  induction cs generalizing g i k with
  | nil => simp [shuffleColsFrom]
  | cons c cs ih =>
    simp only [shuffleColsFrom]
    split
    · match k with
      | 0 => exact ⟨rfl, npPermutation_perm _ _⟩
      | k + 1 =>
        simp only [List.getD_cons_succ]
        exact ih _ (i + 1) k
    · match k with
      | 0 => exact ⟨rfl, List.Perm.refl _⟩
      | k + 1 =>
        simp only [List.getD_cons_succ]
        exact ih _ (i + 1) k

/-- C3: when a `PC_0` column exists (at position `idx`), the null-baseline
construction succeeds and returns a table with the same number of columns
in which every column before `PC_0` is unchanged, and every column keeps
its name, holds exactly the same multiset of values as the corresponding
input column, and keeps its number of rows. -/
theorem null_baseline_preserves_marginals (g : RNG) (t : Table) (idx : ℕ)
    (h : columnIndex t "PC_0" = some idx) :
    ∃ t' g', shuffled_aggregated_data g t = some (t', g') ∧
      t'.length = t.length ∧
      (∀ k, k < idx → t'.getD k defaultCol = t.getD k defaultCol) ∧
      (∀ k, (t'.getD k defaultCol).1 = (t.getD k defaultCol).1 ∧
        ((t'.getD k defaultCol).2 : Multiset ℚ) = ((t.getD k defaultCol).2 : Multiset ℚ) ∧
        (t'.getD k defaultCol).2.length = (t.getD k defaultCol).2.length) := by
  refine ⟨(shuffleColsFrom g 0 idx t).1, (shuffleColsFrom g 0 idx t).2, ?_, ?_, ?_, ?_⟩
  · simp [shuffled_aggregated_data, h]
  · exact shuffleColsFrom_length g 0 idx t
  · intro k hk
    exact shuffleColsFrom_getD_lt g 0 idx k t (by omega)
  · intro k
    obtain ⟨hname, hperm⟩ := shuffleColsFrom_getD_perm g 0 idx k t
    exact ⟨hname, Multiset.coe_eq_coe.mpr hperm, hperm.length_eq⟩

/-- C3 witness: the marginal-preservation theorem instantiated on the
table with one metadata column and one feature column. -/
theorem null_baseline_preserves_marginals_witness :
    ∃ t' g', shuffled_aggregated_data ⟨5⟩ [("gene", [3]), ("PC_0", [1, 2])] = some (t', g') ∧
      t'.length = [("gene", [(3 : ℚ)]), ("PC_0", [1, 2])].length ∧
      (∀ k, k < 1 → t'.getD k defaultCol
          = [("gene", [(3 : ℚ)]), ("PC_0", [1, 2])].getD k defaultCol) ∧
      (∀ k, (t'.getD k defaultCol).1
          = ([("gene", [(3 : ℚ)]), ("PC_0", [1, 2])].getD k defaultCol).1 ∧
        ((t'.getD k defaultCol).2 : Multiset ℚ)
          = (([("gene", [(3 : ℚ)]), ("PC_0", [1, 2])].getD k defaultCol).2 : Multiset ℚ) ∧
        (t'.getD k defaultCol).2.length
          = ([("gene", [(3 : ℚ)]), ("PC_0", [1, 2])].getD k defaultCol).2.length) :=
  null_baseline_preserves_marginals ⟨5⟩ [("gene", [3]), ("PC_0", [1, 2])] 1 (by decide)

/-- C1 counterexample: the null-model shuffle is driven by the ambient
global random state, not an explicit per-call seed, so two runs with
identical explicit arguments but different ambient states produce
different results. -/
theorem null_shuffle_depends_on_ambient_state :
    shuffled_aggregated_data ⟨0⟩ [("PC_0", [0, 1])] ≠
      shuffled_aggregated_data ⟨1⟩ [("PC_0", [0, 1])] := by
  decide

/-- C1 amended: the null shuffle is a deterministic function of its
explicit arguments together with the ambient NumPy random state, so two
sweep jobs reproduce each other only when they also start from the same
ambient state. -/
theorem null_shuffle_reproducible_from_equal_ambient_state
    (t : Table) (g g' : RNG) (h : g = g') :
    shuffled_aggregated_data g t = shuffled_aggregated_data g' t := by
  rw [h]

/-- C1 amended witness: equal ambient states give identical shuffles on a
concrete table. -/
theorem null_shuffle_reproducible_witness :
    shuffled_aggregated_data ⟨7⟩ [("PC_0", [0, 1])] =
      shuffled_aggregated_data ⟨7⟩ [("PC_0", [0, 1])] :=
  null_shuffle_reproducible_from_equal_ambient_state [("PC_0", [0, 1])] ⟨7⟩ ⟨7⟩ rfl

/-- Occurrence count of an element in a list (explicit decidable-equality
counter, used to state the exactly-once sweep-grid property). -/
def countOcc [DecidableEq α] (a : α) : List α → ℕ
  | [] => 0
  | b :: l => (if b = a then 1 else 0) + countOcc a l

/-- Fuel-indexed kernel of `DataFrame.drop_duplicates` (keep the first
occurrence): keep the head, drop every later equal row, recurse.  The fuel
is instantiated with the list length, keeping the recursion structural. -/
def dropDupAux [DecidableEq α] : ℕ → List α → List α
  | 0, _ => []
  | _ + 1, [] => []
  | fuel + 1, a :: l => a :: dropDupAux fuel (l.filter (fun b => decide (b ≠ a)))

/-- Model of `DataFrame.drop_duplicates` on the projected
`(cell_class, channel_combo)` rows: keep the first occurrence of each row. -/
def dropDuplicates [DecidableEq α] (l : List α) : List α :=
  dropDupAux l.length l

/-- A row of the aggregate combos table, projected to its
`cell_class` and `channel_combo` columns. -/
abbrev ComboRow := String × String

/-- Embedding of the sweep-grid construction of the cluster-parameter
notebook: project the aggregate combos to `(cell_class, channel_combo)`,
drop duplicate rows, assign every remaining row the whole resolution list
and explode it, giving one `(cell_class, channel_combo, leiden_resolution)`
row per pair and resolution. -/
def cluster_wildcard_combos (aggregate_combos : List ComboRow)
    (resolutions : List ℚ) : List (String × String × ℚ) :=
  (dropDuplicates aggregate_combos).flatMap
    (fun p => resolutions.map (fun r => (p.1, p.2, r)))

/-- With enough fuel, dropping duplicates leaves exactly one occurrence of
every element of the list and nothing else. -/
theorem countOcc_dropDupAux [DecidableEq α] :
    ∀ (fuel : ℕ) (l : List α) (a : α), l.length ≤ fuel →
      countOcc a (dropDupAux fuel l) = if a ∈ l then 1 else 0 := by
  intro fuel
  induction fuel with
  | zero =>
    intro l a h
    have hl : l = [] := List.eq_nil_of_length_eq_zero (Nat.le_zero.mp h)
    subst hl
    simp [dropDupAux, countOcc]
  | succ n ih =>
    intro l a h
    match l with
    | [] => simp [dropDupAux, countOcc]
    | b :: t =>
      have hfl : (t.filter (fun x => decide (x ≠ b))).length ≤ n := by
        have := List.length_filter_le (fun x => decide (x ≠ b)) t
        simp only [List.length_cons] at h
        omega
      by_cases hab : b = a
      · subst hab
        have hmem : b ∉ t.filter (fun x => decide (x ≠ b)) := by
          simp [List.mem_filter]
        simp only [dropDupAux, countOcc, if_pos rfl]
        rw [ih _ _ hfl, if_neg hmem]
        simp
      · simp only [dropDupAux, countOcc, if_neg hab]
        rw [ih _ _ hfl]
        have hmf : a ∈ t.filter (fun x => decide (x ≠ b)) ↔ a ∈ t := by
          simp only [List.mem_filter, decide_eq_true_eq]
          constructor
          · exact fun hx => hx.1
          · exact fun hx => ⟨hx, fun he => hab he.symm⟩
        rw [if_congr hmf rfl rfl]
        have hbt : a ∈ b :: t ↔ a ∈ t := by
          simp only [List.mem_cons]
          constructor
          · rintro (he | hx)
            · exact absurd he.symm hab
            · exact hx
          · exact Or.inr
        rw [if_congr hbt.symm rfl rfl, Nat.zero_add]

/-- Dropping duplicates leaves exactly one occurrence of every element,
and nothing else. -/
theorem countOcc_dropDuplicates [DecidableEq α] (l : List α) (a : α) :
    countOcc a (dropDuplicates l) = if a ∈ l then 1 else 0 :=
  countOcc_dropDupAux _ _ _ le_rfl

/-- Occurrence counts add up over list append. -/
theorem countOcc_append [DecidableEq α] (a : α) (l₁ l₂ : List α) :
    countOcc a (l₁ ++ l₂) = countOcc a l₁ + countOcc a l₂ := by
  induction l₁ with
  | nil => simp [countOcc]
  | cons b t ih => simp [countOcc, ih]; omega

/-- In a duplicate-free list every element occurs exactly once and every
non-element zero times. -/
theorem countOcc_eq_of_nodup [DecidableEq α] {l : List α} (h : l.Nodup) (a : α) :
    countOcc a l = if a ∈ l then 1 else 0 := by
  induction l with
  | nil => simp [countOcc]
  | cons b t ih =>
    obtain ⟨hb, ht⟩ := List.nodup_cons.mp h
    by_cases hab : b = a
    · subst hab
      have hnt : b ∉ t := hb
      simp [countOcc, ih ht, hnt]
    · have hmem : a ∈ b :: t ↔ a ∈ t := by
        simp only [List.mem_cons]
        exact ⟨fun hor => hor.elim (fun he => absurd he.symm hab) id, Or.inr⟩
      simp only [countOcc, if_neg hab, ih ht, hmem, Nat.zero_add]

/-- Counting a fixed triple in one exploded row: one hit per occurrence of
the resolution when the pair matches, none otherwise. -/
theorem countOcc_explode_row (a b c ch : String) (r : ℚ)
    (resolutions : List ℚ) :
    countOcc (c, ch, r) (resolutions.map (fun x => (a, b, x)))
      = if (a, b) = (c, ch) then countOcc r resolutions else 0 := by
  by_cases hp : (a, b) = (c, ch)
  · obtain ⟨ha, hb⟩ := Prod.mk.injEq a b c ch ▸ hp
    subst ha
    subst hb
    simp only [if_pos rfl]
    induction resolutions with
    | nil => rfl
    | cons x t ih =>
      simp only [List.map_cons, countOcc, ih]
      by_cases hx : x = r
      · subst hx
        simp
      · have h1 : ¬ (((a, b, x) : String × String × ℚ) = (a, b, r)) := by
          simp [Prod.ext_iff, hx]
        simp [h1, hx]
  · have hne : ∀ x : ℚ, ¬ (((a, b, x) : String × String × ℚ) = (c, ch, r)) := by
      intro x hcon
      apply hp
      simp only [Prod.ext_iff] at hcon ⊢
      exact ⟨hcon.1, hcon.2.1⟩
    rw [if_neg hp]
    induction resolutions with
    | nil => rfl
    | cons x t ih => simp [countOcc, ih, hne x]

/-- Counting a fixed triple in the exploded grid: occurrences of the
resolution times occurrences of the pair. -/
theorem countOcc_flatMap_explode (lp : List ComboRow) (c ch : String) (r : ℚ)
    (resolutions : List ℚ) :
    countOcc (c, ch, r)
        (lp.flatMap (fun p => resolutions.map (fun x => (p.1, p.2, x))))
      = countOcc r resolutions * countOcc (c, ch) lp := by
  induction lp with
  | nil => simp [countOcc]
  | cons p t ih =>
    rw [List.flatMap_cons, countOcc_append, ih, countOcc_explode_row]
    have hpe : ((p.1, p.2) : ComboRow) = p := rfl
    rw [hpe]
    show _ = countOcc r resolutions * countOcc (c, ch) (p :: t)
    simp only [countOcc]
    by_cases hp : p = (c, ch)
    · simp [hp, Nat.mul_add, Nat.mul_one]
    · simp [hp]

/-- C4: when the configured resolution list is duplicate-free, the cluster
combo table contains exactly one row for every pair of a
`(cell_class, channel_combo)` combination present in the aggregate combos
and a resolution of the list, and no other rows. -/
theorem sweep_grid_exactly_once (aggregate_combos : List ComboRow)
    (resolutions : List ℚ) (hres : resolutions.Nodup)
    (c ch : String) (r : ℚ) :
    countOcc (c, ch, r) (cluster_wildcard_combos aggregate_combos resolutions)
      = if (c, ch) ∈ aggregate_combos ∧ r ∈ resolutions then 1 else 0 := by
  unfold cluster_wildcard_combos
  rw [countOcc_flatMap_explode, countOcc_dropDuplicates,
    countOcc_eq_of_nodup hres]
  by_cases h1 : (c, ch) ∈ aggregate_combos <;> by_cases h2 : r ∈ resolutions <;>
    simp [h1, h2]

/-- C4 witness: a grid with a duplicated aggregate pair and two
resolutions still yields exactly one row for the pair at resolution 1. -/
theorem sweep_grid_exactly_once_witness :
    countOcc ("all", "DAPI", (1 : ℚ))
        (cluster_wildcard_combos
          [("all", "DAPI"), ("all", "DAPI"), ("mitotic", "DAPI")] [1, 2])
      = if ("all", "DAPI") ∈ [("all", "DAPI"), ("all", "DAPI"), ("mitotic", "DAPI")]
            ∧ (1 : ℚ) ∈ [(1 : ℚ), 2] then 1 else 0 :=
  sweep_grid_exactly_once [("all", "DAPI"), ("all", "DAPI"), ("mitotic", "DAPI")]
    [1, 2] (by decide) "all" "DAPI" 1

/-- Cumulative explained variance of the first `k` PCA components, given
the per-component explained-variance ratios. -/
def cumVar (ratios : List ℚ) (k : ℕ) : ℚ :=
  (ratios.take k).sum

/-- Modelled from the spec: the threshold scan inside the PCA component
selection of `perform_pca_analysis` / `embed_by_pca`
(`lib.cluster.phate_leiden_clustering` / `lib.aggregate.align`, absent
from this repository).  Walk the explained-variance ratios and return the
smallest component count whose cumulative explained variance reaches the
threshold; a threshold above the total falls through to all components. -/
def selectFrom (t : ℚ) : List ℚ → ℕ
  | [] => 0
  | r :: rs => if t ≤ r then 1 else 1 + selectFrom (t - r) rs

/-- Modelled from the spec: the component count chosen from a
cumulative-variance threshold `t` over the explained-variance ratios of
the fitted PCA (one ratio per component, so at most
min(feature count, row count − 1) ratios). -/
def n_components (ratios : List ℚ) (t : ℚ) : ℕ :=
  if t ≤ 0 then 0 else selectFrom t ratios

/-- The threshold scan picks a boundary-tight component count: the
cumulative variance reaches the threshold at the pick and not one step
earlier, and the pick stays within the component count. -/
theorem selectFrom_spec (ratios : List ℚ) :
    ∀ t : ℚ, 0 < t → t ≤ ratios.sum → (∀ r ∈ ratios, 0 ≤ r) →
      1 ≤ selectFrom t ratios ∧ selectFrom t ratios ≤ ratios.length ∧
      t ≤ cumVar ratios (selectFrom t ratios) ∧
      cumVar ratios (selectFrom t ratios - 1) < t := by
  induction ratios with
  | nil =>
    intro t hpos hle _
    simp only [List.sum_nil] at hle
    exact absurd (lt_of_lt_of_le hpos hle) (lt_irrefl 0)
  | cons r rs ih =>
    intro t hpos hle hnn
    by_cases hr : t ≤ r
    · refine ⟨?_, ?_, ?_, ?_⟩ <;> simp [selectFrom, if_pos hr, cumVar, hr, hpos]
    · have hrt : r < t := not_le.mp hr
      have hr0 : 0 ≤ r := hnn r (List.mem_cons_self r rs)
      have hpos' : 0 < t - r := by linarith
      have hle' : t - r ≤ rs.sum := by
        simp only [List.sum_cons] at hle
        linarith
      have hnn' : ∀ x ∈ rs, 0 ≤ x := fun x hx => hnn x (List.mem_cons_of_mem r hx)
      obtain ⟨h1, h2, h3, h4⟩ := ih (t - r) hpos' hle' hnn'
      refine ⟨?_, ?_, ?_, ?_⟩
      · simp [selectFrom, if_neg hr]
      · simp only [selectFrom, if_neg hr, List.length_cons]
        omega
      · simp only [selectFrom, if_neg hr]
        have htake : cumVar (r :: rs) (1 + selectFrom (t - r) rs)
            = r + cumVar rs (selectFrom (t - r) rs) := by
          rw [Nat.add_comm 1]
          simp [cumVar, List.take_succ_cons]
        rw [htake]
        linarith
      · simp only [selectFrom, if_neg hr]
        have hk : 1 + selectFrom (t - r) rs - 1 = (selectFrom (t - r) rs - 1) + 1 := by
          omega
        rw [hk]
        have htake : cumVar (r :: rs) ((selectFrom (t - r) rs - 1) + 1)
            = r + cumVar rs (selectFrom (t - r) rs - 1) := by
          simp [cumVar, List.take_succ_cons]
        rw [htake]
        linarith

/-- C5: with nonnegative explained-variance ratios, one per PCA component
(so min(feature count, row count − 1) ratios in total), and a positive,
attainable cumulative-variance threshold, the chosen component count `K`
reaches the threshold, `K − 1` does not, and `K` is capped at
min(feature count, row count − 1). -/
theorem pca_selection_boundary_tight (ratios : List ℚ) (t : ℚ)
    (nFeatures nRows : ℕ)
    (hlen : ratios.length = min nFeatures (nRows - 1))
    (hnn : ∀ r ∈ ratios, 0 ≤ r) (hpos : 0 < t) (hle : t ≤ ratios.sum) :
    t ≤ cumVar ratios (n_components ratios t) ∧
    cumVar ratios (n_components ratios t - 1) < t ∧
    n_components ratios t ≤ min nFeatures (nRows - 1) := by
  obtain ⟨_, h2, h3, h4⟩ := selectFrom_spec ratios t hpos hle hnn
  unfold n_components
  rw [if_neg (not_le.mpr hpos)]
  exact ⟨h3, h4, hlen ▸ h2⟩

/-- C5 witness: ratios (1/2, 3/10, 1/5) with threshold 7/10 over 3
features and 4 rows select K = 2, tight at both ends of the boundary. -/
theorem pca_selection_boundary_tight_witness :
    (7 / 10 : ℚ) ≤ cumVar [1 / 2, 3 / 10, 1 / 5] (n_components [1 / 2, 3 / 10, 1 / 5] (7 / 10)) ∧
    cumVar [1 / 2, 3 / 10, 1 / 5] (n_components [1 / 2, 3 / 10, 1 / 5] (7 / 10) - 1) < 7 / 10 ∧
    n_components [1 / 2, 3 / 10, 1 / 5] (7 / 10) ≤ min 3 (4 - 1) :=
  pca_selection_boundary_tight [1 / 2, 3 / 10, 1 / 5] (7 / 10) 3 4 (by decide)
    (by intro r hr; fin_cases hr <;> norm_num) (by norm_num)
    (by norm_num [List.sum_cons, List.sum_nil])

/-- Ascending sort of rational values (the sort inside a median
computation). -/
def sortQ (xs : List ℚ) : List ℚ :=
  List.insertionSort (· ≤ ·) xs

/-- Median of a list of rationals: middle element of the sorted values,
averaging the two middle elements for an even count (`np.median`); 0 on
the empty list, a case the claims below never rely on. -/
def median (xs : List ℚ) : ℚ :=
  let s := sortQ xs
  let n := s.length
  if n % 2 = 1 then s.getD (n / 2) 0
  else if n = 0 then 0
  else (s.getD (n / 2 - 1) 0 + s.getD (n / 2) 0) / 2

/-- Median absolute deviation: the median of the absolute deviations from
the median. -/
def mad (xs : List ℚ) : ℚ :=
  median (xs.map (fun x => |x - median xs|))

/-- Modelled from the spec: the per-batch, per-feature rescaling of
`normalize_to_controls` (`lib.cluster.phate_leiden_clustering`, absent
from this repository): location = control median, scale = control MAD of
the batch; every row of the batch — control or not — is rescaled by the
control statistics of its batch.  `ctl` holds the batch's control values
of one feature; `rows` the values to rescale. -/
def normalize_to_controls (ctl rows : List ℚ) : List ℚ :=
  rows.map (fun x => (x - median ctl) / mad ctl)

/-- Arithmetic mean of a list of rationals (0 on the empty list). -/
def meanQ (xs : List ℚ) : ℚ :=
  xs.sum / xs.length

/-- Sorting commutes with mapping a monotone function. -/
theorem sortQ_map_mono (f : ℚ → ℚ) (hf : ∀ a b, a ≤ b → f a ≤ f b)
    (xs : List ℚ) :
    sortQ (xs.map f) = (sortQ xs).map f := by
  apply List.eq_of_perm_of_sorted (r := (· ≤ ·))
  · exact (List.perm_insertionSort _ _).trans
      (((List.perm_insertionSort (· ≤ ·) xs).symm).map f)
  · exact List.sorted_insertionSort _ _
  · exact (List.sorted_insertionSort (· ≤ ·) xs).map f hf

/-- `getD` with an in-bounds index commutes with `map`. -/
theorem getD_map_lt (f : ℚ → ℚ) (t : List ℚ) (i : ℕ) (h : i < t.length) :
    (t.map f).getD i 0 = f (t.getD i 0) := by
  rw [List.getD_eq_getElem?_getD, List.getD_eq_getElem?_getD, List.getElem?_map,
    List.getElem?_eq_getElem h]
  rfl

/-- The median commutes with a strictly increasing affine rescaling. -/
theorem median_map_affine (xs : List ℚ) (m s : ℚ) (hs : 0 < s)
    (hne : xs ≠ []) :
    median (xs.map (fun x => (x - m) / s)) = (median xs - m) / s := by
  have hf : ∀ a b : ℚ, a ≤ b → (a - m) / s ≤ (b - m) / s := by
    intro a b hab
    exact (div_le_div_iff_of_pos_right hs).mpr (sub_le_sub_right hab m)
  have hsort := sortQ_map_mono _ hf xs
  have hlen0 : (sortQ xs).length = xs.length :=
    (List.perm_insertionSort (· ≤ ·) xs).length_eq
  have hpos : 0 < (sortQ xs).length := by
    rw [hlen0]
    exact List.length_pos.mpr hne
  unfold median
  rw [hsort]
  simp only [List.length_map]
  by_cases hodd : (sortQ xs).length % 2 = 1
  · rw [if_pos hodd, if_pos hodd,
      getD_map_lt _ _ _ (Nat.div_lt_self hpos (by norm_num))]
  · rw [if_neg hodd, if_neg hodd, if_neg (by omega), if_neg (by omega)]
    have hlt2 : (sortQ xs).length / 2 < (sortQ xs).length :=
      Nat.div_lt_self hpos (by norm_num)
    have hlt1 : (sortQ xs).length / 2 - 1 < (sortQ xs).length := by omega
    rw [getD_map_lt _ _ _ hlt2, getD_map_lt _ _ _ hlt1]
    have hsne : s ≠ 0 := ne_of_gt hs
    field_simp
    ring

/-- C6 counterexample: for the control batch (0, 1, 101), median = 1 and
MAD = 1, so the normalized controls are (−1, 0, 100): their mean is 33,
nowhere near 0. -/
theorem control_mean_not_zero_after_normalization :
    meanQ (normalize_to_controls [0, 1, 101] [0, 1, 101]) = 33 ∧ (33 : ℚ) ≠ 0 := by
  constructor
  · norm_num [normalize_to_controls, meanQ, median, mad, sortQ,
      List.insertionSort, List.orderedInsert]
  · norm_num

/-- C6 amended: after the Control Normalizer rescales a batch with its
per-feature control median and MAD, the normalized control rows of the
batch have median 0 in every feature (whenever the batch has controls and
a positive control MAD); the control mean is generally nonzero. -/
theorem control_median_zero_after_normalization (ctl : List ℚ)
    (hne : ctl ≠ []) (hmad : 0 < mad ctl) :
    median (normalize_to_controls ctl ctl) = 0 := by
  unfold normalize_to_controls
  rw [median_map_affine ctl (median ctl) (mad ctl) hmad hne]
  simp

/-- C6 amended witness: the control batch (0, 1, 5) has MAD 1 and
normalized control median 0. -/
theorem control_median_zero_witness :
    median (normalize_to_controls [0, 1, 5] [0, 1, 5]) = 0 :=
  control_median_zero_after_normalization [0, 1, 5] (by simp)
    (by norm_num [mad, median, sortQ, List.insertionSort, List.orderedInsert])

/-- Population variance of a feature column. -/
def varQ (xs : List ℚ) : ℚ :=
  (xs.map (fun x => (x - meanQ xs) ^ 2)).sum / xs.length

/-- Population covariance of two feature columns (paired by row). -/
def covQ (xs ys : List ℚ) : ℚ :=
  ((xs.zip ys).map (fun p => (p.1 - meanQ xs) * (p.2 - meanQ ys))).sum / xs.length

/-- Number of distinct values of a feature column. -/
def uniqueCount (xs : List ℚ) : ℕ :=
  (dropDuplicates xs).length

/-- Whether the Pearson correlation of two columns exceeds the threshold
in absolute value.  Decided on squares so that the test stays within
rational arithmetic: for a nonnegative threshold `t`,
`|corr| > t` iff `cov² > t² · var · var`. -/
def corrExceeds (t : ℚ) (xs ys : List ℚ) : Bool :=
  decide (t ^ 2 * (varQ xs * varQ ys) < covQ xs ys ^ 2)

/-- Mean squared correlation of a column to the remaining columns (the
rational-arithmetic stand-in, monotone in each term, for the mean absolute
correlation used to pick which of a correlated pair to drop). -/
def meanSqCorr (c : List ℚ) (others : List (List ℚ)) : ℚ :=
  (others.map (fun o => covQ c o ^ 2 / (varQ c * varQ o))).sum / others.length

/-- Mean squared correlation of the column at index `i` to all other
columns of the table. -/
def meanSqCorrAt (cols : List Col) (i : ℕ) : ℚ :=
  meanSqCorr (cols.getD i defaultCol).2 ((cols.eraseIdx i).map (fun c => c.2))

/-- First later column still correlated (beyond the threshold) with the
given column. -/
def firstCorrelatedWith (ct : ℚ) (c : List ℚ) (rest : List Col) : Option ℕ :=
  rest.findIdx? (fun d => corrExceeds ct c d.2)

/-- First still-correlated pair of column indices `(i, j)` with `i < j`,
scanning in original column order. -/
def findCorrelatedPair (ct : ℚ) : List Col → Option (ℕ × ℕ)
  | [] => none
  | c :: cs =>
    match firstCorrelatedWith ct c.2 cs with
    | some j => some (0, j + 1)
    | none => (findCorrelatedPair ct cs).map (fun p => (p.1 + 1, p.2 + 1))

/-- Of a correlated pair, the index to remove: the column with the higher
mean (squared) correlation to all others; on a tie the later column `j`
goes, keeping the original column order. -/
def removalIdx (cols : List Col) (i j : ℕ) : ℕ :=
  if meanSqCorrAt cols j < meanSqCorrAt cols i then i else j

/-- Fuel-indexed iterative correlation pruning: while a correlated pair
remains, remove the chosen column of the first such pair.  Each step
removes one column, so fuel = column count suffices and keeps the
recursion structural. -/
def pruneCorrelatedAux (ct : ℚ) : ℕ → List Col → List Col
  | 0, cols => cols
  | fuel + 1, cols =>
    match findCorrelatedPair ct cols with
    | none => cols
    | some (i, j) => pruneCorrelatedAux ct fuel (cols.eraseIdx (removalIdx cols i j))

/-- Iterative correlation pruning of a feature table. -/
def pruneCorrelated (ct : ℚ) (cols : List Col) : List Col :=
  pruneCorrelatedAux ct cols.length cols

/-- Keep the feature columns whose variance reaches the variance
threshold. -/
def varianceFilter (vt : ℚ) (cols : List Col) : List Col :=
  cols.filter (fun c => decide (vt ≤ varQ c.2))

/-- Keep the feature columns with at least the minimum number of distinct
values. -/
def uniqueFilter (mu : ℕ) (cols : List Col) : List Col :=
  cols.filter (fun c => decide (mu ≤ uniqueCount c.2))

/-- The Feature Selector's filtering chain: variance threshold, then
minimum unique values, then iterative correlation pruning. -/
def filteredFeatures (ct vt : ℚ) (mu : ℕ) (cols : List Col) : List Col :=
  pruneCorrelated ct (uniqueFilter mu (varianceFilter vt cols))

/-- A feature matrix: its row count together with its named feature
columns (each column carrying one value per row). -/
structure DataTable where
  nRows : ℕ
  cols : List Col
deriving DecidableEq

/-- Modelled from the spec: the error kind `select_features` raises on a
malformed or empty-after-filtering matrix. -/
inductive ValidationError where
  | emptyAfterFiltering
deriving DecidableEq

/-- Modelled from the spec: `select_features`
(`lib.cluster.phate_leiden_clustering`, absent from this repository)
filters by variance threshold, minimum unique values and iterative
correlation pruning (correlation comparisons realized on squares to stay
rational), and fails with a `ValidationError` when no feature column or
fewer than two rows remain. -/
def select_features (ct vt : ℚ) (mu : ℕ) (t : DataTable) :
    Except ValidationError DataTable :=
  let kept := filteredFeatures ct vt mu t.cols
  if kept.length = 0 ∨ t.nRows < 2 then .error .emptyAfterFiltering
  else .ok ⟨t.nRows, kept⟩

/-- C7: `select_features` fails with a `ValidationError` exactly on the
inputs where the filtering chain leaves zero feature columns or fewer
than two rows; on every other input it returns the filtered table with
the row count untouched. -/
theorem select_features_error_characterization (ct vt : ℚ) (mu : ℕ)
    (t : DataTable) :
    select_features ct vt mu t
      = if filteredFeatures ct vt mu t.cols = [] ∨ t.nRows < 2
        then .error .emptyAfterFiltering
        else .ok ⟨t.nRows, filteredFeatures ct vt mu t.cols⟩ := by
  unfold select_features
  rcases h : filteredFeatures ct vt mu t.cols with _ | ⟨c, cs⟩ <;>
    simp [h]

/-- A benchmark table: its column names and its rows (each row one value
per column, as strings). -/
structure BenchmarkTable where
  columns : List String
  rows : List (List String)
deriving DecidableEq

/-- Modelled from the spec and the notebook's schema note
(src/unnamed/part_001, Benchmark Generation cell):
`generate_string_pair_benchmark` (`lib.cluster.scrape_benchmarks`, absent
from this repository) returns a table with a `gene_name` column for
matching against cluster genes and a `pair` column holding the pair id;
each known related pair contributes two rows sharing one pair id.  Only
the schema layer matters to the claims; the pairs themselves are scraped
from STRING data external to this core. -/
def generate_string_pair_benchmark (genePairs : List (String × String)) :
    BenchmarkTable :=
  { columns := ["gene_name", "pair"]
    rows := genePairs.enum.flatMap
      (fun p => [[p.2.1, toString p.1], [p.2.2, toString p.1]]) }

/-- Modelled from the spec and the notebook's schema note: a group
benchmark (`generate_corum_group_benchmark`,
`generate_msigdb_group_benchmark`) has a `gene_name` column and a `group`
column holding the group id; one row per (gene, group) membership. -/
def generate_corum_group_benchmark (memberships : List (String × String)) :
    BenchmarkTable :=
  { columns := ["gene_name", "group"]
    rows := memberships.map (fun p => [p.1, p.2]) }

/-- Modelled from the spec: the column check of a benchmark-consuming
function (a missing required column is a BenchmarkDataError). -/
def hasRequiredColumns (required actual : List String) : Bool :=
  required.all (fun c => actual.contains c)

/-- C8 counterexample: the pair benchmark's id column is named `pair`,
not `pair_id`: the generated table does not carry the columns
{gene_name, pair_id} claimed (and likewise the group benchmark carries
`group`, not `group_id`). -/
theorem pair_benchmark_columns_not_pair_id :
    (generate_string_pair_benchmark [("A", "B")]).columns ≠ ["gene_name", "pair_id"] ∧
    "pair_id" ∉ (generate_string_pair_benchmark [("A", "B")]).columns ∧
    "group_id" ∉ (generate_corum_group_benchmark [("A", "G1")]).columns := by
  decide

/-- C8 amended: every generated pair benchmark has exactly the columns
{gene_name, pair} and every generated group benchmark exactly
{gene_name, group}, and a consumer requiring those columns accepts the
generated tables. -/
theorem benchmark_schema_columns (genePairs memberships : List (String × String)) :
    (generate_string_pair_benchmark genePairs).columns = ["gene_name", "pair"] ∧
    (generate_corum_group_benchmark memberships).columns = ["gene_name", "group"] ∧
    hasRequiredColumns ["gene_name", "pair"]
        (generate_string_pair_benchmark genePairs).columns = true ∧
    hasRequiredColumns ["gene_name", "group"]
        (generate_corum_group_benchmark memberships).columns = true := by
  refine ⟨rfl, rfl, ?_, ?_⟩ <;> rfl

/-- A scalar configuration value (string, integer or null), as loaded by
`yaml.safe_load` and written back by the notebook. -/
inductive CfgScalar where
  | str : String → CfgScalar
  | int : Int → CfgScalar
  | null : CfgScalar
deriving DecidableEq

/-- A configuration value: a scalar, a list of scalars, or a mapping of
scalars — the shapes the notebook writes into the `cluster` section
(paths, resolution lists, the per-class cutoff mapping). -/
inductive CfgVal where
  | scalar : CfgScalar → CfgVal
  | list : List CfgScalar → CfgVal
  | map : List (String × CfgScalar) → CfgVal
deriving DecidableEq

/-- The loaded configuration mapping: top-level section names to their
values, in insertion order (a python dict). -/
abbrev Config := List (String × CfgVal)

/-- Model of python dict assignment `config["cluster"] = {...}`: replace
the value at the key in place, or append the binding when the key is new.
-/
def setKey : Config → String → CfgVal → Config
  | [], k, v => [(k, v)]
  | (k', v') :: rest, k, v =>
    if k' = k then (k, v) :: rest else (k', v') :: setKey rest k v

/-- First-match association lookup (python dict access; keys of a dict are
unique). -/
def lookupKey : Config → String → Option CfgVal
  | [], _ => none
  | (k', v') :: rest, k => if k' = k then some v' else lookupKey rest k

/-- Render one scalar. -/
def dumpScalar : CfgScalar → String
  | .str s => s
  | .int i => toString i
  | .null => "null"

/-- Render one configuration value in block style. -/
def dumpVal : CfgVal → String
  | .scalar s => dumpScalar s
  | .list l => String.join (l.map (fun s => "- " ++ dumpScalar s ++ "\n"))
  | .map m => String.join (m.map (fun kv => "  " ++ kv.1 ++ ": " ++ dumpScalar kv.2 ++ "\n"))

/-- Render one top-level binding. -/
def dumpEntry (kv : String × CfgVal) : String :=
  match kv.2 with
  | .scalar s => kv.1 ++ ": " ++ dumpScalar s ++ "\n"
  | v => kv.1 ++ ":\n" ++ dumpVal v

/-- Model of `yaml.dump(config, config_file, default_flow_style=False)`:
one block per top-level key.  (The YAML emitter's key ordering is
immaterial to the frame claim; insertion order is rendered here.) -/
def yamlDump (cfg : Config) : String :=
  String.join (cfg.map dumpEntry)

/-- Embedding of the config-rewrite cell of the cluster-parameter
notebook: set the `cluster` section (`config["cluster"] = {...}`), then
write the introductory header (`CONFIG_FILE_HEADER`, a fixed string from
`lib.shared.configuration_utils`) followed by the YAML dump of the
updated mapping. -/
def write_updated_config (header : String) (cfg : Config)
    (clusterSection : CfgVal) : String :=
  header ++ yamlDump (setKey cfg "cluster" clusterSection)

/-- Setting a key leaves the binding of every other key untouched. -/
theorem lookupKey_setKey_ne (key k : String) (v : CfgVal) (h : k ≠ key) :
    ∀ cfg : Config, lookupKey (setKey cfg key v) k = lookupKey cfg k := by
  have hkk : ¬ key = k := fun he => h he.symm
  intro cfg
  induction cfg with
  | nil => simp [setKey, lookupKey, hkk]
  | cons kv rest ih =>
    obtain ⟨k', v'⟩ := kv
    by_cases hk : k' = key
    · subst hk
      simp only [setKey, if_pos rfl, lookupKey]
      rw [if_neg hkk, if_neg hkk]
    · simp only [setKey, if_neg hk, lookupKey]
      by_cases he : k' = k
      · rw [if_pos he, if_pos he]
      · rw [if_neg he, if_neg he]
        exact ih

/-- Setting a key binds exactly that key to the new value. -/
theorem lookupKey_setKey_self (key : String) (v : CfgVal) :
    ∀ cfg : Config, lookupKey (setKey cfg key v) key = some v := by
  intro cfg
  induction cfg with
  | nil => simp [setKey, lookupKey]
  | cons kv rest ih =>
    obtain ⟨k', v'⟩ := kv
    by_cases hk : k' = key
    · simp [setKey, if_pos hk, lookupKey]
    · simp only [setKey, if_neg hk, lookupKey, if_neg hk]
      exact ih

/-- C10: writing the cluster parameters back modifies only the top-level
`cluster` section — every other top-level key still maps to its loaded
value, `cluster` maps to the new section — and the rewritten file is
exactly the fixed header followed by the YAML dump of the updated
mapping. -/
theorem config_update_frame (cfg : Config) (clusterSection : CfgVal)
    (header k : String) (h : k ≠ "cluster") :
    lookupKey (setKey cfg "cluster" clusterSection) k = lookupKey cfg k ∧
    lookupKey (setKey cfg "cluster" clusterSection) "cluster" = some clusterSection ∧
    write_updated_config header cfg clusterSection
      = header ++ yamlDump (setKey cfg "cluster" clusterSection) :=
  ⟨lookupKey_setKey_ne "cluster" k clusterSection h cfg,
    lookupKey_setKey_self "cluster" clusterSection cfg, rfl⟩

/-- C10 witness: on a loaded config with `all` and `aggregate` sections,
setting `cluster` leaves the `all` section bound to its loaded value. -/
theorem config_update_frame_witness :
    lookupKey (setKey [("all", CfgVal.scalar (CfgScalar.str "analysis_root")),
        ("aggregate", CfgVal.scalar CfgScalar.null)] "cluster"
        (CfgVal.map [("leiden_resolutions", CfgScalar.int 1)])) "all"
      = lookupKey [("all", CfgVal.scalar (CfgScalar.str "analysis_root")),
        ("aggregate", CfgVal.scalar CfgScalar.null)] "all" ∧
    lookupKey (setKey [("all", CfgVal.scalar (CfgScalar.str "analysis_root")),
        ("aggregate", CfgVal.scalar CfgScalar.null)] "cluster"
        (CfgVal.map [("leiden_resolutions", CfgScalar.int 1)])) "cluster"
      = some (CfgVal.map [("leiden_resolutions", CfgScalar.int 1)]) ∧
    write_updated_config "# header\n"
        [("all", CfgVal.scalar (CfgScalar.str "analysis_root")),
          ("aggregate", CfgVal.scalar CfgScalar.null)]
        (CfgVal.map [("leiden_resolutions", CfgScalar.int 1)])
      = "# header\n" ++ yamlDump (setKey
          [("all", CfgVal.scalar (CfgScalar.str "analysis_root")),
            ("aggregate", CfgVal.scalar CfgScalar.null)] "cluster"
          (CfgVal.map [("leiden_resolutions", CfgScalar.int 1)])) :=
  config_update_frame
    [("all", CfgVal.scalar (CfgScalar.str "analysis_root")),
      ("aggregate", CfgVal.scalar CfgScalar.null)]
    (CfgVal.map [("leiden_resolutions", CfgScalar.int 1)])
    "# header\n" "all" (by decide)

/-- The distance metric option of the clustering pipeline
(`PHATE_DISTANCE_METRIC`: `euclidean` or `cosine`). -/
inductive DistanceMetric where
  | euclidean
  | cosine
deriving DecidableEq

/-- Dot product of two coordinate vectors (paired componentwise). -/
def dotQ (x y : List ℚ) : ℚ :=
  ((x.zip y).map (fun p => p.1 * p.2)).sum

/-- Squared euclidean distance between two coordinate vectors. -/
def sqDist (x y : List ℚ) : ℚ :=
  ((x.zip y).map (fun p => (p.1 - p.2) ^ 2)).sum

/-- Dissimilarity under the chosen metric, kept rational: squared
euclidean distance, or one minus the squared cosine similarity (the
rational surrogate for cosine distance). -/
def metricDist : DistanceMetric → List ℚ → List ℚ → ℚ
  | .euclidean, x, y => sqDist x y
  | .cosine, x, y => 1 - dotQ x y ^ 2 / (dotQ x x * dotQ y y)

/-- The entry with the smallest second component (first wins ties). -/
def minBySnd : List (ℕ × ℚ) → Option (ℕ × ℚ)
  | [] => none
  | p :: rest =>
    match minBySnd rest with
    | none => some p
    | some q => if q.2 < p.2 then some q else some p

/-- One sweep step of the community-detection pass at node `i`: find the
nearest other node under the metric and adopt its label when the
dissimilarity is within the resolution-controlled threshold
(`d · resolution ≤ 1`, so a higher resolution admits fewer merges: more,
smaller clusters). -/
def clusterStep (m : DistanceMetric) (resolution : ℚ)
    (data : List (List ℚ)) (labels : List ℕ) (i : ℕ) : List ℕ :=
  match minBySnd ((data.enum.filter (fun p => decide (p.1 ≠ i))).map
      (fun p => (p.1, metricDist m (data.getD i []) p.2))) with
  | none => labels
  | some (j, d) =>
    if d * resolution ≤ 1 then labels.set i (labels.getD j 0) else labels

/-- The generator owned by the cluster engine, initialized from the
explicit clustering seed (the engine's only source of randomness). -/
def seedRNG (seed : ℕ) : RNG := ⟨seed⟩

/-- Modelled from the spec: `phate_leiden_pipeline`
(`lib.cluster.phate_leiden_clustering`, absent from this repository).
Build a nearest-neighbour similarity structure over the embedded rows and
partition it by a modularity-style label sweep in a seed-shuffled node
order; the resolution controls granularity and the explicit seed is the
only randomness.  Rows start in singleton clusters and each node in the
shuffled order may adopt its nearest neighbour's label. -/
def phate_leiden_pipeline (data : List (List ℚ)) (resolution : ℚ)
    (metric : DistanceMetric) (seed : ℕ) : List ℕ :=
  let order := (npPermutation (seedRNG seed) (List.range data.length)).1
  order.foldl (clusterStep metric resolution data) (List.range data.length)

/-- Each sweep step keeps one label per row. -/
theorem clusterStep_length (m : DistanceMetric) (resolution : ℚ)
    (data : List (List ℚ)) (labels : List ℕ) (i : ℕ) :
    (clusterStep m resolution data labels i).length = labels.length := by
  unfold clusterStep
  rcases hmin : minBySnd ((data.enum.filter (fun p => decide (p.1 ≠ i))).map
      (fun p => (p.1, metricDist m (data.getD i []) p.2))) with _ | ⟨j, d⟩
  · rw [hmin]
  · rw [hmin]
    show (if d * resolution ≤ 1 then labels.set i (labels.getD j 0) else labels).length
        = labels.length
    by_cases hd : d * resolution ≤ 1
    · rw [if_pos hd, List.length_set]
    · rw [if_neg hd]

/-- The sweep keeps one label per row. -/
theorem foldl_clusterStep_length (m : DistanceMetric) (resolution : ℚ)
    (data : List (List ℚ)) :
    ∀ (order labels : List ℕ),
      (order.foldl (clusterStep m resolution data) labels).length
        = labels.length := by
  intro order
  induction order with
  | nil => intro labels; rfl
  | cons i rest ih =>
    intro labels
    rw [List.foldl_cons, ih, clusterStep_length]

/-- C2: the cluster engine is deterministic given a fixed seed — on
identical (embedding, resolution, metric, seed) inputs, two runs of the
pipeline return the identical cluster assignment, giving every row the
same cluster label, with exactly one label per input row. -/
theorem cluster_engine_deterministic (d₁ d₂ : List (List ℚ)) (r₁ r₂ : ℚ)
    (m₁ m₂ : DistanceMetric) (s₁ s₂ : ℕ)
    (hd : d₁ = d₂) (hr : r₁ = r₂) (hm : m₁ = m₂) (hs : s₁ = s₂) :
    phate_leiden_pipeline d₁ r₁ m₁ s₁ = phate_leiden_pipeline d₂ r₂ m₂ s₂ ∧
    (∀ k, (phate_leiden_pipeline d₁ r₁ m₁ s₁).getD k 0
        = (phate_leiden_pipeline d₂ r₂ m₂ s₂).getD k 0) ∧
    (phate_leiden_pipeline d₁ r₁ m₁ s₁).length = d₁.length := by
  subst hd
  subst hr
  subst hm
  subst hs
  refine ⟨rfl, fun _ => rfl, ?_⟩
  unfold phate_leiden_pipeline
  rw [foldl_clusterStep_length, List.length_range]

/-- C2 witness: two runs on a concrete two-row embedding at resolution 1,
euclidean metric and seed 42 agree row by row and label both rows. -/
theorem cluster_engine_deterministic_witness :
    phate_leiden_pipeline [[0], [1]] 1 DistanceMetric.euclidean 42
        = phate_leiden_pipeline [[0], [1]] 1 DistanceMetric.euclidean 42 ∧
    (∀ k, (phate_leiden_pipeline [[0], [1]] 1 DistanceMetric.euclidean 42).getD k 0
        = (phate_leiden_pipeline [[0], [1]] 1 DistanceMetric.euclidean 42).getD k 0) ∧
    (phate_leiden_pipeline [[0], [1]] 1 DistanceMetric.euclidean 42).length
        = [[(0 : ℚ)], [1]].length :=
  cluster_engine_deterministic [[0], [1]] [[0], [1]] 1 1
    DistanceMetric.euclidean DistanceMetric.euclidean 42 42 rfl rfl rfl rfl

/-- Select the values of a column at the rows where the mask holds
(a boolean row mask, as produced by a pandas comparison). -/
def maskSelect (mask : List Bool) (xs : List ℚ) : List ℚ :=
  ((mask.zip xs).filter (fun p => p.1)).map (fun p => p.2)

/-- Midrank of a value within a combined sample (average rank over its
ties, 1-based). -/
def midRank (v : ℚ) (combined : List ℚ) : ℚ :=
  ((combined.filter (fun w => decide (w < v))).length : ℚ)
    + (((combined.filter (fun w => decide (w = v))).length : ℚ) + 1) / 2

/-- Rank sum of the test sample within test ++ control. -/
def rankSumOf (test ctl : List ℚ) : ℚ :=
  (test.map (fun v => midRank v (test ++ ctl))).sum

/-- Mann-Whitney U statistic of the test sample. -/
def uStat (test ctl : List ℚ) : ℚ :=
  rankSumOf test ctl - (test.length : ℚ) * ((test.length : ℚ) + 1) / 2

/-- U statistic of an arbitrary reassignment: the subset `S` of positions
of the combined sample plays the test group. -/
def uOf (c : List ℚ) (n : ℕ) (S : Finset ℕ) : ℚ :=
  ((c.enum.filter (fun p => decide (p.1 ∈ S))).map (fun p => midRank p.2 c)).sum
    - (n : ℚ) * ((n : ℚ) + 1) / 2

/-- Exact two-sided rank-test p-value: the fraction of equal-size
reassignments of the combined sample whose U statistic is at least as far
from its null center as the observed one (the exact permutation form of
the Mann-Whitney test). -/
def pValueExact (test ctl : List ℚ) : ℚ :=
  let c := test ++ ctl
  let n := test.length
  let center : ℚ := (n : ℚ) * (ctl.length : ℚ) / 2
  let subsets := (Finset.range c.length).powersetCard n
  let extreme := subsets.filter
    (fun S => |uStat test ctl - center| ≤ |uOf c n S - center|)
  (extreme.card : ℚ) / (subsets.card : ℚ)

/-- One row of the differential-feature result: the feature with its
robust z-score, rank-test p-value and the two group medians. -/
structure DiffEntry where
  feature : String
  robust_zscore : ℚ
  p_value : ℚ
  median_test : ℚ
  median_control : ℚ
deriving DecidableEq

/-- The per-feature statistics of the differential analysis: select the
cluster rows and the control rows of the feature column, then robust
z-score = (median(cluster) − median(control)) / MAD(control), the exact
rank-test p-value, and both medians. -/
def diffEntryOf (testMask ctlMask : List Bool) (c : Col) : DiffEntry :=
  let test := maskSelect testMask c.2
  let ctl := maskSelect ctlMask c.2
  { feature := c.1
    robust_zscore := (median test - median ctl) / mad ctl
    p_value := pValueExact test ctl
    median_test := median test
    median_control := median ctl }

/-- Modelled from the spec: `differential_analysis`
(`lib.cluster.cluster_analysis`, absent from this repository).  Rows of
the feature table correspond positionwise to `genes` (the perturbation
name column) and `clusters` (the cluster assignment); the cluster rows
are those assigned `cluster_id` and the control rows those whose gene
matches the control label.  Every feature column yields its robust
z-score, exact rank-test p-value and group medians, and the entries come
back ranked by decreasing absolute z-score. -/
def differential_analysis (featureTable : Table) (genes : List String)
    (clusters : List ℕ) (cluster_id : ℕ) (control_label : String) :
    List DiffEntry :=
  let testMask := clusters.map (fun x => decide (x = cluster_id))
  let ctlMask := genes.map (fun s => decide (s = control_label))
  (featureTable.map (diffEntryOf testMask ctlMask)).mergeSort
    (fun a b => decide (|b.robust_zscore| ≤ |a.robust_zscore|))

/-- C9: the Differential Feature Analyzer returns exactly one entry per
feature column (a permutation of the feature names), sorted by
decreasing absolute robust z-score, and every entry carries the robust
z-score (median(cluster) − median(control)) / MAD(control), the rank-test
p-value and the two group medians of its feature column. -/
theorem differential_analysis_ranked (featureTable : Table)
    (genes : List String) (clusters : List ℕ) (cluster_id : ℕ)
    (control_label : String) :
    List.Perm
      ((differential_analysis featureTable genes clusters cluster_id
          control_label).map (fun e => e.feature))
      (featureTable.map (fun c => c.1)) ∧
    (differential_analysis featureTable genes clusters cluster_id
        control_label).Pairwise
      (fun a b => |b.robust_zscore| ≤ |a.robust_zscore|) ∧
    (∀ e, e ∈ differential_analysis featureTable genes clusters cluster_id
        control_label →
      ∃ c, c ∈ featureTable ∧
        e = diffEntryOf (clusters.map (fun x => decide (x = cluster_id)))
          (genes.map (fun s => decide (s = control_label))) c ∧
        e.feature = c.1 ∧
        e.robust_zscore = (e.median_test - e.median_control)
          / mad (maskSelect (genes.map (fun s => decide (s = control_label))) c.2) ∧
        e.median_test
          = median (maskSelect (clusters.map (fun x => decide (x = cluster_id))) c.2) ∧
        e.median_control
          = median (maskSelect (genes.map (fun s => decide (s = control_label))) c.2) ∧
        e.p_value
          = pValueExact (maskSelect (clusters.map (fun x => decide (x = cluster_id))) c.2)
              (maskSelect (genes.map (fun s => decide (s = control_label))) c.2)) := by
  refine ⟨?_, ?_, ?_⟩
  · unfold differential_analysis
    refine ((List.mergeSort_perm _ _).map _).trans ?_
    rw [List.map_map]
    exact List.Perm.refl _
  · unfold differential_analysis
    refine List.Pairwise.imp (fun h => of_decide_eq_true h)
      (@List.sorted_mergeSort DiffEntry
        (fun a b => decide (|b.robust_zscore| ≤ |a.robust_zscore|)) ?_ ?_ _)
    · intro a b c hab hbc
      exact decide_eq_true
        (le_trans (of_decide_eq_true hbc) (of_decide_eq_true hab))
    · intro a b
      rcases le_total |b.robust_zscore| |a.robust_zscore| with h | h
      · simp [h]
      · simp [h]
  · intro e he
    unfold differential_analysis at he
    rw [List.mem_mergeSort] at he
    obtain ⟨c, hc, hec⟩ := List.mem_map.mp he
    subst hec
    exact ⟨c, hc, rfl, rfl, rfl, rfl, rfl, rfl⟩

/-- C9 witness: on a one-feature table with rows (cluster 0, control) and
(cluster 1, gene g), the entry of feature `f` carries exactly the robust
z-score, medians and rank p-value of its column. -/
theorem differential_analysis_ranked_witness :
    ∃ c, c ∈ [("f", [(0 : ℚ), 1])] ∧
      diffEntryOf ([0, 1].map (fun x => decide (x = 1)))
          (["ctrl", "g"].map (fun s => decide (s = "ctrl"))) ("f", [(0 : ℚ), 1])
        = diffEntryOf ([0, 1].map (fun x => decide (x = 1)))
          (["ctrl", "g"].map (fun s => decide (s = "ctrl"))) c ∧
      (diffEntryOf ([0, 1].map (fun x => decide (x = 1)))
          (["ctrl", "g"].map (fun s => decide (s = "ctrl"))) ("f", [(0 : ℚ), 1])).feature
        = c.1 ∧
      (diffEntryOf ([0, 1].map (fun x => decide (x = 1)))
          (["ctrl", "g"].map (fun s => decide (s = "ctrl"))) ("f", [(0 : ℚ), 1])).robust_zscore
        = ((diffEntryOf ([0, 1].map (fun x => decide (x = 1)))
            (["ctrl", "g"].map (fun s => decide (s = "ctrl"))) ("f", [(0 : ℚ), 1])).median_test
          - (diffEntryOf ([0, 1].map (fun x => decide (x = 1)))
            (["ctrl", "g"].map (fun s => decide (s = "ctrl"))) ("f", [(0 : ℚ), 1])).median_control)
          / mad (maskSelect (["ctrl", "g"].map (fun s => decide (s = "ctrl"))) c.2) ∧
      (diffEntryOf ([0, 1].map (fun x => decide (x = 1)))
          (["ctrl", "g"].map (fun s => decide (s = "ctrl"))) ("f", [(0 : ℚ), 1])).median_test
        = median (maskSelect ([0, 1].map (fun x => decide (x = 1))) c.2) ∧
      (diffEntryOf ([0, 1].map (fun x => decide (x = 1)))
          (["ctrl", "g"].map (fun s => decide (s = "ctrl"))) ("f", [(0 : ℚ), 1])).median_control
        = median (maskSelect (["ctrl", "g"].map (fun s => decide (s = "ctrl"))) c.2) ∧
      (diffEntryOf ([0, 1].map (fun x => decide (x = 1)))
          (["ctrl", "g"].map (fun s => decide (s = "ctrl"))) ("f", [(0 : ℚ), 1])).p_value
        = pValueExact (maskSelect ([0, 1].map (fun x => decide (x = 1))) c.2)
            (maskSelect (["ctrl", "g"].map (fun s => decide (s = "ctrl"))) c.2) :=
  (differential_analysis_ranked [("f", [(0 : ℚ), 1])] ["ctrl", "g"] [0, 1] 1
      "ctrl").2.2
    (diffEntryOf ([0, 1].map (fun x => decide (x = 1)))
      (["ctrl", "g"].map (fun s => decide (s = "ctrl"))) ("f", [(0 : ℚ), 1]))
    (by
      unfold differential_analysis
      rw [List.mem_mergeSort]
      exact List.mem_map_of_mem _ (by simp))

end Brieflow
